import Mathlib

/-!
Shallow embedding of the optimization core of the `kerney` weekly
field-service planner, together with theorems settling the frozen claims
about it.

The embedding follows the Python sources:
  * `src/scripts/frequency.py`  — frequency engine and A/B "repasses" split,
  * `src/scripts/cronograma.py` — visit-pattern catalog and weekly MIP glue,
  * `src/scripts/solve.py`      — daily grouping, modality choice and the
    1-to-1 weekly-capacity retry loop.

Machine reals (pandas floats / numpy) are modelled as `ℚ` with exact
arithmetic; integer columns as `ℕ`.  Dataframes become lists of records,
and vectorized row updates become `List.map` / `List.filter`.
-/

namespace Kerney

/-! ## Frequency engine (frequency.py, `main`, steps 9–13)

A per-asset projection of the pipeline that turns the consumption-based
frequency `FREQ_BASEADO_EM_CONSUMO` into the final `FREQUENCIA`:

  * line 391–393: `FREQUENCIA_REPOSICAO = min(fc, min(dpw, fcur))`,
  * line 409: optional flexibility `fmin' = max(fmin, fcur - flex)`,
  * line 412: `FREQUENCIA = max(fmin', FREQUENCIA_REPOSICAO)`,
  * line 415–422: optional intra-partner standardization, replacing each
    asset's frequency with the maximum over its partner's assets.

The per-SKU rows collapse by `max` over SKUs (line 396); since
`max_k min(fc_k, m) = min(max_k fc_k, m)` this projection takes `fc` to be
the per-asset maximum directly. -/

/-- One asset row of the frequency computation: consumption-based frequency,
days per week, current frequency and weekly minimum. -/
structure FreqInput where
  fc : ℕ
  dpw : ℕ
  fcur : ℕ
  fmin : ℕ
  deriving DecidableEq, Repr

/-- `FREQUENCIA_REPOSICAO` (frequency.py line 391–393): the consumption-based
frequency capped by days-per-week and by the current frequency. -/
def frequenciaReposicao (r : FreqInput) : ℕ :=
  min r.fc (min r.dpw r.fcur)

/-- The effective weekly minimum (frequency.py line 409): when a flexibility
`flex` is supplied, the floor is raised to `fcur - flex`.  (`ℕ` subtraction
truncates at 0, matching `np.maximum` against a possibly negative value.) -/
def fminFlex (flex : Option ℕ) (r : FreqInput) : ℕ :=
  match flex with
  | none => r.fmin
  | some fl => max r.fmin (r.fcur - fl)

/-- `FREQUENCIA` before standardization (frequency.py line 412). -/
def frequencia (flex : Option ℕ) (r : FreqInput) : ℕ :=
  max (fminFlex flex r) (frequenciaReposicao r)

/-- Intra-partner standardization (frequency.py lines 415–422): the maximum
final frequency over the partner's asset cohort. -/
def frequenciaParc (flex : Option ℕ) (cohort : List FreqInput) : ℕ :=
  (cohort.map (frequencia flex)).foldr max 0

/-- The final chosen frequency of asset `r` whose partner cohort is `cohort`
(which contains `r`), with standardization toggled by `std`. -/
def finalFrequencia (std : Bool) (flex : Option ℕ)
    (cohort : List FreqInput) (r : FreqInput) : ℕ :=
  if std then frequenciaParc flex cohort else frequencia flex r

/-! ## Repasses: the A/B split (frequency.py, `repasses`) -/

/-- A row of `visitas_df` at the time `repasses` runs: one SKU line of an
asset, carrying `DIAS_POR_SEMANA` and `FREQ_BASEADO_EM_CONSUMO`
(a whole number, the result of `np.ceil`). -/
structure VisitaRow where
  filial : String
  parceiro : String
  patrimonio : String
  dias : ℕ
  freqCons : ℕ
  deriving DecidableEq, Repr

/-- A row of `patrimonios_df`: asset metadata with the weekly minimum
`FREQUENCIA_SEMANAL_MINIMA` and the `APLICA_REPASSE` flag. -/
structure PatrimonioRow where
  filial : String
  parceiro : String
  patrimonio : String
  fmin : ℕ
  aplicaRepasse : Bool
  deriving DecidableEq, Repr

/-- A row of `parceiros_df`: the partner's opening window, in seconds
(`INICIO_FUNCIONAMENTO`/`FIM_FUNCIONAMENTO`, modelled as exact rationals). -/
structure ParceiroRow where
  filial : String
  parceiro : String
  inicio : ℚ
  fim : ℚ
  deriving DecidableEq, Repr

/-- A row of the geographic `depara_point_id` mapping. -/
structure DeparaRow where
  filial : String
  parceiro : String
  pointId : String
  deriving DecidableEq, Repr

/-- `idx_repasse` (frequency.py lines 108–112): the row's consumption-based
frequency exceeds `1.5 ×` its days-per-week (`2·fc > 3·dias` exactly), and,
when an allow-list is given, the asset is on it. -/
def eligRepasse (allowed : Option (List String)) (r : VisitaRow) : Bool :=
  (decide (2 * r.freqCons > 3 * r.dias)) &&
    (match allowed with
     | none => true
     | some l => l.contains r.patrimonio)

/-- The `_A` visita row (lines 124–126): suffix `_A`, consumption frequency
clamped to `DIAS_POR_SEMANA`. -/
def visitaA (r : VisitaRow) : VisitaRow :=
  { r with parceiro := r.parceiro ++ "_A",
           patrimonio := r.patrimonio ++ "_A",
           freqCons := r.dias }

/-- The `_B` visita row (lines 128–132): suffix `_B`, the remaining
consumption frequency `fc - dias`. -/
def visitaB (r : VisitaRow) : VisitaRow :=
  { r with parceiro := r.parceiro ++ "_B",
           patrimonio := r.patrimonio ++ "_B",
           freqCons := r.freqCons - r.dias }

/-- Halving of the weekly minimum, rounding up
(`np.ceil(fmin / 2)`, line 138–140). -/
def halveMin (fmin : ℕ) : ℕ := (fmin + 1) / 2

/-- The `_A` patrimônio row (lines 145–146, after the halving and with the
repasse flags kept, lines 152–157). -/
def patrimonioA (r : PatrimonioRow) : PatrimonioRow :=
  { r with patrimonio := r.patrimonio ++ "_A",
           parceiro := r.parceiro ++ "_A",
           fmin := halveMin r.fmin,
           aplicaRepasse := true }

/-- The `_B` patrimônio row (lines 148–149). -/
def patrimonioB (r : PatrimonioRow) : PatrimonioRow :=
  { r with patrimonio := r.patrimonio ++ "_B",
           parceiro := r.parceiro ++ "_B",
           fmin := halveMin r.fmin,
           aplicaRepasse := true }

/-- `gap_aplicado` (lines 177–184): the requested gap, reduced to
`max 0 (dur - 60 s)` whenever the window duration is at most the requested
gap plus one minute. -/
def gapAplicado (dur gapDes : ℚ) : ℚ :=
  if dur ≤ gapDes + 60 then max 0 (dur - 60) else gapDes

/-- Whether the degeneracy warning fires (`impossiveis`, lines 178–180). -/
def splitWarns (dur gapDes : ℚ) : Bool :=
  decide (dur ≤ gapDes + 60)

/-- The split midpoint `mid = start + (dur - gap)/2` (line 187). -/
def splitMid (inicio fim gapDes : ℚ) : ℚ :=
  inicio + ((fim - inicio) - gapAplicado (fim - inicio) gapDes) / 2

/-- The `_A` partner row (lines 193, 196–197): window
`[inicio, mid - gap]`. -/
def parceiroA (gapDes : ℚ) (r : ParceiroRow) : ParceiroRow :=
  { r with parceiro := r.parceiro ++ "_A",
           fim := splitMid r.inicio r.fim gapDes -
                    gapAplicado (r.fim - r.inicio) gapDes }

/-- The `_B` partner row (lines 194, 199–200): window
`[mid + gap, fim]`. -/
def parceiroB (gapDes : ℚ) (r : ParceiroRow) : ParceiroRow :=
  { r with parceiro := r.parceiro ++ "_B",
           inicio := splitMid r.inicio r.fim gapDes +
                       gapAplicado (r.fim - r.inicio) gapDes }

/-- The `repasses` rewriting (frequency.py lines 79–218), over list-of-record
tables.  `gapDes` is `gap_min_hours` in seconds (default 3 h = 10800 s).
When no row is eligible it returns its inputs unchanged (lines 115–116);
otherwise it rewrites the four tables exactly as the source does. -/
def repasses (allowed : Option (List String)) (gapDes : ℚ)
    (visitas : List VisitaRow) (pats : List PatrimonioRow)
    (parcs : List ParceiroRow) (depara : List DeparaRow) :
    List VisitaRow × List PatrimonioRow × List ParceiroRow × List DeparaRow :=
  if visitas.all (fun r => !(eligRepasse allowed r)) then
    (visitas, pats, parcs, depara)
  else
    -- names of assets / partners undergoing the split (lines 118–119)
    let patsRep := (visitas.filter (eligRepasse allowed)).map (·.patrimonio)
    let parcsRep := (visitas.filter (eligRepasse allowed)).map (·.parceiro)
    -- visitas: eligible rows become `_A` in place, `_B` copies appended
    let visitas' :=
      (visitas.map (fun r => if eligRepasse allowed r then visitaA r else r)) ++
        (visitas.filter (eligRepasse allowed)).map visitaB
    -- patrimônios: halve the minimum, rename to `_A`, append `_B` copies
    let pats' :=
      (pats.map (fun r =>
        if patsRep.contains r.patrimonio then patrimonioA r else r)) ++
        (pats.filter (fun r => patsRep.contains r.patrimonio)).map patrimonioB
    -- final partner list (line 162), used to filter the derived tables
    let parcsFinais := pats'.map (·.parceiro)
    -- parceiros: drop the split bases, append `_A`/`_B` windows, filter
    let parcs' :=
      ((parcs.filter (fun r => !(parcsRep.contains r.parceiro))) ++
        (parcs.filter (fun r => parcsRep.contains r.parceiro)).map (parceiroA gapDes) ++
        (parcs.filter (fun r => parcsRep.contains r.parceiro)).map (parceiroB gapDes)).filter
        (fun r => parcsFinais.contains r.parceiro)
    -- depara: duplicate rows for `_A`/`_B`, filter to the final partners
    let depara' :=
      (depara ++
        (depara.filter (fun (r : DeparaRow) => parcsRep.contains r.parceiro)).map
          (fun (r : DeparaRow) => { r with parceiro := r.parceiro ++ "_A" }) ++
        (depara.filter (fun (r : DeparaRow) => parcsRep.contains r.parceiro)).map
          (fun (r : DeparaRow) => { r with parceiro := r.parceiro ++ "_B" })).filter
        (fun r => parcsFinais.contains r.parceiro)
    (visitas', pats', parcs', depara')

/-! ## Modality selection per route (solve.py, lines 899–924)

Per solved route (`livro`), the code aggregates service time, entry time,
driving travel time and distance, computes the walking travel time at
5 km/h, and marks the route `A Pé` when the walking total passes the test
on line 919; otherwise it stays `Moto/Carro`. -/

/-- Transport modality of a route. -/
inductive Modal where
  | aPe
  | motoCarro
  deriving DecidableEq, Repr

/-- Walking travel time (solve.py line 899):
`int(DIST / (5/3.6))` seconds for `DIST` meters, i.e. `⌊dist · 18/25⌋`. -/
def tempoDeslocAPe (dist : ℕ) : ℕ := 18 * dist / 25

/-- Walking total time for a route (line 911):
service + entry + walking travel. -/
def tempoTotalAPe (servico entrada dist : ℕ) : ℕ :=
  servico + entrada + tempoDeslocAPe dist

/-- The modality test exactly as written on solve.py line 919:
`TEMPO_TOTAL_A_PE * 100000 <= MAX_TIME * (1 + error_margin)`, where
`error_margin = int(config_sheet['J9'].value)` (line 393) is an integer. -/
def modalLivro (servico entrada dist maxTime errorMargin : ℕ) : Modal :=
  if tempoTotalAPe servico entrada dist * 100000 ≤ maxTime * (1 + errorMargin)
  then Modal.aPe else Modal.motoCarro

/-- Modelled from the spec: the modality rule as the specification states
it — walking exactly when `T_walk · (1 + margin) ≤ Tmax`, with a fractional
margin (typical 0.05–0.15). -/
def specModal (servico entrada dist maxTime : ℕ) (margin : ℚ) : Modal :=
  if (tempoTotalAPe servico entrada dist : ℚ) * (1 + margin) ≤ (maxTime : ℚ)
  then Modal.aPe else Modal.motoCarro

/-! ## The 1-to-1 weekly-capacity retry loop (solve.py, lines 608–1037)

In 1-to-1 mode the block `while not restricao_semanal:` re-solves the whole
batch; after each solve it checks whether any aggregated route exceeds the
weekly budget, and on overrun it sets
`tempo_total_semana_adj = int(np.ceil(tempo_total_semana_adj * 0.95))` and
`percentil_deslocamento += 5` (lines 1031–1034) and loops.  The solve-and-
check body is abstracted as an oracle from the adjustable state to the check
outcome; everything else is embedded exactly.  (Note: the raised percentile
is only read at line 587, *outside* the loop, so inside the loop it is dead
state — it is still carried here, as the source carries it.) -/

/-- The mutable state of the retry loop. -/
structure RetryState where
  adj : ℕ
  percentil : ℕ
  deriving DecidableEq, Repr

/-- `int(np.ceil(adj * 0.95))` (solve.py line 1033), exactly:
`⌈19·adj / 20⌉`. -/
def adjStep (adj : ℕ) : ℕ := (19 * adj + 19) / 20

/-- One overrun reaction (lines 1033–1034). -/
def retryStep (st : RetryState) : RetryState :=
  ⟨adjStep st.adj, st.percentil + 5⟩

/-- The retry loop (line 613, `while not restricao_semanal:`), with the
solve-and-check body abstracted as `oracle` (true = the weekly check of
line 1031 passes).  `fuel` bounds the number of observed iterations; the
source loop itself has no bound, so exhausting the fuel returns `none`
("still looping after `fuel` overruns"). -/
def retryLoop (oracle : RetryState → Bool) : ℕ → RetryState → Option RetryState
  | 0, st => if oracle st then some st else none
  | n + 1, st => if oracle st then some st else retryLoop oracle n (retryStep st)

/-! ## Visit-pattern catalog (cronograma.py, `generate_visit_patterns`)

The Python code works on floats and uses Python's `round` (banker's
rounding, half to even); floats are modelled as exact rationals. -/

/-- Python's `round` on a nonnegative rational: nearest integer, ties to
even. -/
def pyRound (q : ℚ) : ℤ :=
  if q - ⌊q⌋ < 1 / 2 then ⌊q⌋
  else if q - ⌊q⌋ > 1 / 2 then ⌊q⌋ + 1
  else if ⌊q⌋ % 2 = 0 then ⌊q⌋ else ⌊q⌋ + 1

/-- The accumulation loop of `generate_visit_patterns`
(cronograma.py lines 73–77): `f` iterations of
`pattern.append(round(current) % n_p); current += step`. -/
def baseAux (np_ : ℕ) (step : ℚ) : ℕ → ℚ → List ℕ
  | 0, _ => []
  | k + 1, current => (pyRound current).toNat % np_ :: baseAux np_ step k (current + step)

/-- `visit_pattern[f]` (line 79): the sorted equispaced base pattern for
frequency `f` on `np_` days, built with `step = np_ / f`. -/
def visitPattern (np_ f : ℕ) : List ℕ :=
  (baseAux np_ ((np_ : ℚ) / (f : ℚ)) f 0).insertionSort (· ≤ ·)

/-- One rotation of the base pattern by shift `s` (line 88):
`tuple(sorted((t + s) % n_p for t in visit_pattern[f]))`. -/
def rotation (np_ f s : ℕ) : List ℕ :=
  ((visitPattern np_ f).map (fun t => (t + s) % np_)).insertionSort (· ≤ ·)

/-- `visit_patterns[f]` (lines 84–91): all `np_` rotations of the base,
deduplicated (the Python `set`); the final `sorted(...)` only fixes the
presentation order of the set, `dedup` keeps first occurrences instead. -/
def generateVisitPatterns (np_ f : ℕ) : List (List ℕ) :=
  ((List.range np_).map (rotation np_ f)).dedup

/-- Modelled from the claim's words: the canonical base
`{round(i·Dw/f) mod Dw : i = 0..f-1}` with direct multiplication. -/
def specBase (dw f : ℕ) : List ℕ :=
  (List.range f).map (fun (i : ℕ) => (pyRound ((i : ℚ) * dw / f)).toNat % dw)

/-- Modelled from the claim's words: the catalog as a set of day-index sets —
all `Dw` rotations of the canonical base, deduplicated as sets. -/
def specCatalog (dw f : ℕ) : Finset (Finset ℕ) :=
  (Finset.range dw).image
    (fun s => ((specBase dw f).map (fun t => (t + s) % dw)).toFinset)

/-! ## Weekly scheduler glue (cronograma.py, `main`) -/

/-- Whether a character list contains the two-character substring `_B`
(the `.str.contains('_B')` test of cronograma.py line 191). -/
def contemB : List Char → Bool
  | [] => false
  | c :: rest => (['_', 'B'].isPrefixOf (c :: rest)) || contemB rest

/-- `ALLOW_SATURDAY` (cronograma.py lines 189–191): Saturday is allowed only
for an asset with `DIAS_POR_SEMANA = 6` and frequency 6 whose name does not
contain `_B`. -/
def allowSaturday (dpw freq : ℕ) (patrimonio : String) : Bool :=
  (decide (dpw = 6) && decide (freq = 6)) && !(contemB patrimonio.toList)

/-- The admissible pattern set of one asset (cronograma.py lines 231–237):
the catalog for its frequency, with every pattern containing day 5 removed
unless `ALLOW_SATURDAY`. -/
def candidatos (np_ f : ℕ) (allowSat : Bool) : List (List ℕ) :=
  (generateVisitPatterns np_ f).filter
    (fun dias => allowSat || !(dias.contains 5))

/-- The exactly-one-pattern MIP constraint for one asset
(cronograma.py line 262): a 0/1 choice `x` over the candidate indices sums
to 1. -/
def constraintSat (cands : List (List ℕ)) (x : ℕ → Bool) : Prop :=
  ((List.range cands.length).filter x).length = 1

/-- Solution extraction for one asset (cronograma.py lines 289–298): the
days of every candidate pattern whose decision variable is 1.  The source
never inspects the solver status, so this is total in `x`. -/
def extractDays (cands : List (List ℕ)) (x : ℕ → Bool) : List ℕ :=
  ((List.range cands.length).filter x).flatMap (fun p => cands.getD p [])

/-- The full per-asset trip through the scheduler for an asset of frequency
`f` and `DIAS_POR_SEMANA = dpw` named `patrimonio`, on an `np_`-day week:
filter the catalog by the derived `ALLOW_SATURDAY`, then extract whatever
the solver assignment says.  There is no error branch: for every solver
outcome a (possibly empty) day list is emitted. -/
def scheduleFor (np_ f dpw : ℕ) (patrimonio : String) (x : ℕ → Bool) : List ℕ :=
  extractDays (candidatos np_ f (allowSaturday dpw f patrimonio)) x

/-! ## Daily grouping (solve.py, lines 554–568)

The rows of one `(PERIODO, FILIAL, PARCEIRO)` cohort, in the order fixed by
the sort on line 555.  All rows of a cohort share the partner's
`TEMPO_DE_ENTRADA` and the branch's `MAX_TIME`, and the `GROUP` label embeds
the partner and period, so distinct cohorts never interact: the while-loop
of lines 564–568 is embedded for a single cohort, with group labels reduced
to the numeric `G{n}` suffix.  `AC_TIME` (lines 560, 567) is the cumulative
service time within the row's current group. -/

/-- State of the grouping while-loop: the group id of each of the `n` rows
and the running `group_num` counter (both start at 1, line 558–559). -/
structure GroupState (n : ℕ) where
  grp : Fin n → ℕ
  counter : ℕ

/-- `AC_TIME` of row `i`: the groupby-cumsum of `TEMPO_SERVICO` within
`i`'s group, i.e. the services of the rows up to `i` in the same group. -/
def acTime {n : ℕ} (services : Fin n → ℕ) (st : GroupState n) (i : Fin n) : ℕ :=
  ∑ j ∈ Finset.univ.filter (fun j => j ≤ i ∧ st.grp j = st.grp i), services j

/-- The overflow mask of line 563:
`AC_TIME + TEMPO_DE_ENTRADA > MAX_TIME`. -/
def violator {n : ℕ} (services : Fin n → ℕ) (entrada maxT : ℕ)
    (st : GroupState n) (i : Fin n) : Prop :=
  maxT < acTime services st i + entrada

instance {n : ℕ} (services : Fin n → ℕ) (entrada maxT : ℕ) (st : GroupState n) :
    DecidablePred (violator services entrada maxT st) := fun _ =>
  Nat.decLt _ _

/-- One iteration of the while-loop body (lines 565–567): bump `group_num`
and push every overflowing row into the new group. -/
def groupStep {n : ℕ} (services : Fin n → ℕ) (entrada maxT : ℕ)
    (st : GroupState n) : GroupState n :=
  ⟨fun i => if violator services entrada maxT st i then st.counter + 1 else st.grp i,
   st.counter + 1⟩

/-- The while-loop of lines 564–568, run for at most `fuel` iterations;
`none` means the guard was still true when the fuel ran out. -/
def groupLoop {n : ℕ} (services : Fin n → ℕ) (entrada maxT : ℕ) :
    ℕ → GroupState n → Option (GroupState n)
  | 0, st =>
      if ∃ i, violator services entrada maxT st i then none else some st
  | fuel + 1, st =>
      if ∃ i, violator services entrada maxT st i then
        groupLoop services entrada maxT fuel (groupStep services entrada maxT st)
      else some st

/-- The initial state (lines 558–559): every row in group `G1`,
`group_num = 1`. -/
def groupInit (n : ℕ) : GroupState n := ⟨fun _ => 1, 1⟩

/-! ## Helper lemmas -/

lemma le_foldr_max (x : ℕ) (l : List ℕ) (h : x ∈ l) : x ≤ l.foldr max 0 := by
  induction l with
  | nil => cases h
  | cons a t ih =>
      rcases List.mem_cons.mp h with rfl | h
      · exact le_max_left _ _
      · exact le_trans (ih h) (le_max_right _ _)

lemma foldr_max_le (l : List ℕ) (m : ℕ) (h : ∀ x ∈ l, x ≤ m) :
    l.foldr max 0 ≤ m := by
  induction l with
  | nil => exact Nat.zero_le m
  | cons a t ih =>
      exact max_le (h a (List.mem_cons_self a t))
        (ih fun x hx => h x (List.mem_cons_of_mem a hx))

lemma fmin_le_frequencia (flex : Option ℕ) (b : FreqInput) :
    b.fmin ≤ frequencia flex b := by
  cases flex <;> · simp only [frequencia, fminFlex]; omega

lemma frequencia_le (flex : Option ℕ) (b : FreqInput) (m : ℕ)
    (hfmin : b.fmin ≤ m) (hdpw : b.dpw ≤ m)
    (hflex : ∀ fl, flex = some fl → b.fcur ≤ m + fl) :
    frequencia flex b ≤ m := by
  cases flex with
  | none => simp only [frequencia, fminFlex, frequenciaReposicao]; omega
  | some fl =>
      have h := hflex fl rfl
      simp only [frequencia, fminFlex, frequenciaReposicao]
      omega

lemma elig_dias_le {allowed : Option (List String)} {r : VisitaRow}
    (h : eligRepasse allowed r = true) : r.dias ≤ r.freqCons := by
  unfold eligRepasse at h
  rw [Bool.and_eq_true] at h
  have := of_decide_eq_true h.1
  omega

/-! ## Claim C1 — bounds on the final frequency -/

/-- C1 (counterexample): as stated, the invariant `fmin_a ≤ f_a ≤ dpw_a`
fails on the code: an asset whose configured weekly minimum exceeds its
days-per-week (`fmin = 7`, `dpw = 5`, `fc = 3`, `fcur = 5`) receives final
frequency `7 > 5 = dpw`. -/
theorem c1_counterexample :
    finalFrequencia false none [⟨3, 5, 5, 7⟩] ⟨3, 5, 5, 7⟩ = 7 ∧
      ¬ finalFrequencia false none [⟨3, 5, 5, 7⟩] ⟨3, 5, 5, 7⟩ ≤ 5 := by
  decide

/-- C1 (amended): provided every asset `b` of the partner cohort satisfies
`fmin_b ≤ dpw_a`, `dpw_b ≤ dpw_a` and, when a flexibility `flex` is given,
`fcur_b ≤ dpw_a + flex`, the final chosen frequency of asset `a` — after
the reposition cap, the optional flexibility floor, the final max with the
minimum, and optional intra-partner standardization — satisfies
`fmin_a ≤ f_a ≤ dpw_a`. -/
theorem c1_final_frequency_bounds (std : Bool) (flex : Option ℕ)
    (cohort : List FreqInput) (r : FreqInput) (hmem : r ∈ cohort)
    (hfmin : ∀ b ∈ cohort, b.fmin ≤ r.dpw)
    (hdpw : ∀ b ∈ cohort, b.dpw ≤ r.dpw)
    (hflex : ∀ fl, flex = some fl → ∀ b ∈ cohort, b.fcur ≤ r.dpw + fl) :
    r.fmin ≤ finalFrequencia std flex cohort r ∧
      finalFrequencia std flex cohort r ≤ r.dpw := by
  constructor
  · cases std with
    | false => simpa [finalFrequencia] using fmin_le_frequencia flex r
    | true =>
        simp only [finalFrequencia, if_true, frequenciaParc]
        exact le_trans (fmin_le_frequencia flex r)
          (le_foldr_max _ _ (List.mem_map_of_mem (frequencia flex) hmem))
  · cases std with
    | false =>
        simp only [finalFrequencia, Bool.false_eq_true, if_false]
        exact frequencia_le flex r r.dpw (hfmin r hmem) (hdpw r hmem)
          (fun fl hfl => hflex fl hfl r hmem)
    | true =>
        simp only [finalFrequencia, if_true, frequenciaParc]
        apply foldr_max_le
        intro x hx
        obtain ⟨b, hb, rfl⟩ := List.mem_map.mp hx
        exact frequencia_le flex b r.dpw (hfmin b hb) (hdpw b hb)
          (fun fl hfl => hflex fl hfl b hb)

/-- C1 (witness): the amended bound instantiated at a concrete consistent
asset (`fc = 3`, `dpw = 5`, `fcur = 5`, `fmin = 2`, no flexibility, no
standardization). -/
theorem c1_witness :
    (2 : ℕ) ≤ finalFrequencia false none [⟨3, 5, 5, 2⟩] ⟨3, 5, 5, 2⟩ ∧
      finalFrequencia false none [⟨3, 5, 5, 2⟩] ⟨3, 5, 5, 2⟩ ≤ 5 :=
  c1_final_frequency_bounds false none [⟨3, 5, 5, 2⟩] ⟨3, 5, 5, 2⟩
    (by decide) (by decide) (by decide) (fun fl h => nomatch h)

/-! ## Claim C2 — modality selection -/

/-- C2: the modality rule of the specification is not the one the code
implements.  For a route with walking total `T_walk = 720 s`,
`Tmax = 14400 s` (4 h) and a 10 % margin, the specification's rule
`T_walk · (1 + margin) ≤ Tmax` chooses walking, but solve.py line 919
compares `T_walk · 100000 ≤ Tmax · (1 + error_margin)` and therefore marks
the route `Moto/Carro` (for the integer margin read from the sheet, whether
`int(0.1) = 0` or `10`). -/
theorem c2_modal_failing_input :
    tempoTotalAPe 0 0 1000 = 720 ∧
    modalLivro 0 0 1000 14400 0 = Modal.motoCarro ∧
    modalLivro 0 0 1000 14400 10 = Modal.motoCarro ∧
    specModal 0 0 1000 14400 (1 / 10) = Modal.aPe := by
  refine ⟨by decide, by decide, by decide, ?_⟩
  simp only [specModal, tempoTotalAPe, tempoDeslocAPe]
  norm_num

/-! ## Claim C3 — the A/B split conserves the consumption frequency -/

/-- C3: for every visita row undergoing the A/B split, the `_A` half gets
consumption frequency `dpw` and the `_B` half the remainder, both halves
appear in the rewritten visits table, and the two frequencies sum back to
the original `fc`. -/
theorem c3_split_sum (allowed : Option (List String)) (gapDes : ℚ)
    (visitas : List VisitaRow) (pats : List PatrimonioRow)
    (parcs : List ParceiroRow) (depara : List DeparaRow) (r : VisitaRow)
    (hmem : r ∈ visitas) (helig : eligRepasse allowed r = true) :
    visitaA r ∈ (repasses allowed gapDes visitas pats parcs depara).1 ∧
    visitaB r ∈ (repasses allowed gapDes visitas pats parcs depara).1 ∧
    (visitaA r).freqCons = r.dias ∧
    (visitaA r).freqCons + (visitaB r).freqCons = r.freqCons := by
  have hall : (visitas.all fun v => !(eligRepasse allowed v)) = false := by
    cases hcase : visitas.all fun v => !(eligRepasse allowed v) with
    | false => rfl
    | true =>
        exfalso
        rw [List.all_eq_true] at hcase
        have := hcase r hmem
        simp [helig] at this
  unfold repasses
  rw [hall]
  simp only [Bool.false_eq_true, if_false]
  refine ⟨?_, ?_, ?_, ?_⟩
  · exact List.mem_append_left _
      (List.mem_map.mpr ⟨r, hmem, by simp [helig]⟩)
  · exact List.mem_append_right _
      (List.mem_map.mpr ⟨r, List.mem_filter.mpr ⟨hmem, helig⟩, rfl⟩)
  · simp [visitaA]
  · have := elig_dias_le helig
    simp only [visitaA, visitaB]
    omega

/-- C3 (witness): the split conservation at a concrete eligible row
(`fc = 12`, `dpw = 5`): the halves get frequencies 5 and 7. -/
theorem c3_witness :
    visitaA ⟨"F", "P", "PAT1", 5, 12⟩ ∈
      (repasses none 10800 [⟨"F", "P", "PAT1", 5, 12⟩] [] [] []).1 ∧
    visitaB ⟨"F", "P", "PAT1", 5, 12⟩ ∈
      (repasses none 10800 [⟨"F", "P", "PAT1", 5, 12⟩] [] [] []).1 ∧
    (visitaA ⟨"F", "P", "PAT1", 5, 12⟩).freqCons = 5 ∧
    (visitaA ⟨"F", "P", "PAT1", 5, 12⟩).freqCons +
        (visitaB ⟨"F", "P", "PAT1", 5, 12⟩).freqCons = 12 :=
  c3_split_sum none 10800 [⟨"F", "P", "PAT1", 5, 12⟩] [] [] []
    ⟨"F", "P", "PAT1", 5, 12⟩ (List.mem_singleton.mpr rfl) (by decide)

/-! ## Claim C4 — the split windows of scenario C -/

/-- C4 (counterexample): for a partner with a 10 h window (`[0, 36000 s]`)
and the requested 3 h gap, the code's `_A` window ends at
`mid - gap = 1800 s` (0.5 h), not at the claimed `3.5 h = 12600 s`. -/
theorem c4_counterexample :
    (parceiroA 10800 ⟨"F", "P", 0, 36000⟩).fim = 1800 ∧
    (parceiroA 10800 ⟨"F", "P", 0, 36000⟩).fim ≠ 12600 := by
  constructor <;>
  · simp [parceiroA, splitMid, gapAplicado]
    norm_num

/-- C4 (amended): for the split-eligible asset with `fc = 12`, `dpw = 5`
whose partner has the 10 h window `[0, 36000 s]` and requested gap 3 h, the
split produces partner window A `= [0, 1800 s]` (0.5 h) and partner window
B `= [23400 s, 36000 s]` ([6.5 h, 10 h]): the applied gap is subtracted on
both sides of the midpoint `M = 12600 s`, so the halves are separated by
`2·G = 6 h`. -/
theorem c4_split_windows :
    repasses (some ["PAT1"]) 10800
      [⟨"F", "P", "PAT1", 5, 12⟩] [⟨"F", "P", "PAT1", 2, true⟩]
      [⟨"F", "P", 0, 36000⟩] [⟨"F", "P", "PT7"⟩] =
    ([⟨"F", "P_A", "PAT1_A", 5, 5⟩, ⟨"F", "P_B", "PAT1_B", 5, 7⟩],
     [⟨"F", "P_A", "PAT1_A", 1, true⟩, ⟨"F", "P_B", "PAT1_B", 1, true⟩],
     [⟨"F", "P_A", 0, 1800⟩, ⟨"F", "P_B", 23400, 36000⟩],
     [⟨"F", "P_A", "PT7"⟩, ⟨"F", "P_B", "PT7"⟩]) := by
  simp [repasses, eligRepasse, visitaA, visitaB, patrimonioA, patrimonioB,
    parceiroA, parceiroB, splitMid, gapAplicado, halveMin]
  norm_num

/-! ## Claim C5 — degenerate split windows -/

/-- C5: for a partner whose window duration is at most the requested gap
plus 60 s (here a 2 h window against a 3 h gap), the code does warn and
reduce the applied gap (to `dur - 60 s = 7140 s`) and never aborts, but the
`_A` window it then produces is `[0, -7110 s]` — its start lies after its
end, contradicting the claim (and the source comment) that both windows
stay non-empty.  The `_B` window `[7170 s, 7200 s]` is fine. -/
theorem c5_degenerate_split :
    splitWarns 7200 10800 = true ∧
    gapAplicado 7200 10800 = 7140 ∧
    (parceiroA 10800 ⟨"F", "P", 0, 7200⟩).fim = -7110 ∧
    (parceiroA 10800 ⟨"F", "P", 0, 7200⟩).fim <
      (parceiroA 10800 ⟨"F", "P", 0, 7200⟩).inicio ∧
    (parceiroB 10800 ⟨"F", "P", 0, 7200⟩).inicio = 7170 ∧
    (parceiroB 10800 ⟨"F", "P", 0, 7200⟩).inicio ≤
      (parceiroB 10800 ⟨"F", "P", 0, 7200⟩).fim := by
  refine ⟨?_, ?_, ?_, ?_, ?_, ?_⟩ <;>
  · simp [splitWarns, parceiroA, parceiroB, splitMid, gapAplicado]
    norm_num

/-! ## Claim C9 — the 1-to-1 weekly-capacity retry loop -/

/-- C9 (counterexample): the retry loop has no attempt cap.  Against a
solve whose weekly check keeps failing, after 20 further overruns (well
past the claimed ~10-iteration cap) the loop is still iterating — it
neither terminated nor failed. -/
theorem c9_counterexample :
    retryLoop (fun _ => false) 20 ⟨44, 50⟩ = none := by
  decide

/-- C9 (amended): the retry loop iterates with no bound at all: for every
fuel, a persistently failing weekly check leaves it still looping, and the
capacity update `adj ↦ ⌈0.95·adj⌉` has fixed point 1, so the shrinking
capacity never bottoms out at 0 to stop it. -/
theorem c9_retry_unbounded :
    (∀ (fuel : ℕ) (st : RetryState),
        retryLoop (fun _ => false) fuel st = none) ∧
    adjStep 1 = 1 := by
  constructor
  · intro fuel
    induction fuel with
    | zero => intro st; simp [retryLoop]
    | succ n ih => intro st; simp only [retryLoop, Bool.false_eq_true,
        if_false]; exact ih _
  · decide

/-! ## Claim C10 — repasses is the identity when nothing is eligible -/

/-- C10: when no visits row has `FREQ_BASEADO_EM_CONSUMO` above
`1.5 × DIAS_POR_SEMANA` among the split-eligible assets, `repasses` returns
all four tables unchanged. -/
theorem c10_repasses_identity (allowed : Option (List String)) (gapDes : ℚ)
    (visitas : List VisitaRow) (pats : List PatrimonioRow)
    (parcs : List ParceiroRow) (depara : List DeparaRow)
    (h : ∀ r ∈ visitas, eligRepasse allowed r = false) :
    repasses allowed gapDes visitas pats parcs depara =
      (visitas, pats, parcs, depara) := by
  have hall : (visitas.all fun v => !(eligRepasse allowed v)) = true := by
    rw [List.all_eq_true]
    intro v hv
    simp [h v hv]
  unfold repasses
  rw [hall]
  simp

/-- C10 (witness): identity on a concrete ineligible population
(`fc = 7 ≤ 1.5 × 5`). -/
theorem c10_witness :
    repasses none 10800 [⟨"F", "P", "PAT1", 5, 7⟩]
      [⟨"F", "P", "PAT1", 2, false⟩] [⟨"F", "P", 0, 36000⟩]
      [⟨"F", "P", "PT1"⟩] =
    ([⟨"F", "P", "PAT1", 5, 7⟩], [⟨"F", "P", "PAT1", 2, false⟩],
     [⟨"F", "P", 0, 36000⟩], [⟨"F", "P", "PT1"⟩]) :=
  c10_repasses_identity none 10800 _ _ _ _ (by decide)

/-! ## Claim C8 — correctness of the daily grouping loop -/

lemma acTime_mono {n : ℕ} (services : Fin n → ℕ) (st : GroupState n)
    {i i' : Fin n} (hle : i ≤ i') (hg : st.grp i = st.grp i') :
    acTime services st i ≤ acTime services st i' := by
  apply Finset.sum_le_sum_of_subset
  intro j hj
  simp only [Finset.mem_filter, Finset.mem_univ, true_and] at hj ⊢
  exact ⟨le_trans hj.1 hle, hg ▸ hj.2⟩

lemma groupStep_fresh {n : ℕ} (services : Fin n → ℕ) (entrada maxT : ℕ)
    (st : GroupState n) (hfresh : ∀ i, st.grp i ≤ st.counter) :
    ∀ i, (groupStep services entrada maxT st).grp i ≤
      (groupStep services entrada maxT st).counter := by
  intro i
  simp only [groupStep]
  split
  · exact le_refl _
  · exact le_trans (hfresh i) (Nat.le_succ _)

lemma acTime_groupStep_of_not_violator {n : ℕ} (services : Fin n → ℕ)
    (entrada maxT : ℕ) (st : GroupState n)
    (hfresh : ∀ i, st.grp i ≤ st.counter) (i : Fin n)
    (hi : ¬ violator services entrada maxT st i) :
    acTime services (groupStep services entrada maxT st) i =
      acTime services st i := by
  have hgi : (groupStep services entrada maxT st).grp i = st.grp i := by
    simp only [groupStep]
    exact if_neg hi
  unfold acTime
  apply Finset.sum_congr _ (fun _ _ => rfl)
  ext j
  simp only [Finset.mem_filter, Finset.mem_univ, true_and, hgi]
  constructor
  · rintro ⟨hji, hj⟩
    refine ⟨hji, ?_⟩
    by_cases hv : violator services entrada maxT st j
    · exfalso
      have : (groupStep services entrada maxT st).grp j = st.counter + 1 := by
        simp only [groupStep]; exact if_pos hv
      rw [this] at hj
      exact absurd (hj ▸ hfresh i) (by omega)
    · have : (groupStep services entrada maxT st).grp j = st.grp j := by
        simp only [groupStep]; exact if_neg hv
      exact this ▸ hj
  · rintro ⟨hji, hj⟩
    refine ⟨hji, ?_⟩
    by_cases hv : violator services entrada maxT st j
    · exfalso
      have hmono := acTime_mono services st hji hj
      exact hi (lt_of_lt_of_le hv (by omega))
    · have : (groupStep services entrada maxT st).grp j = st.grp j := by
        simp only [groupStep]; exact if_neg hv
      exact this.trans hj

lemma acTime_groupStep_min_violator {n : ℕ} (services : Fin n → ℕ)
    (entrada maxT : ℕ) (st : GroupState n)
    (hfresh : ∀ i, st.grp i ≤ st.counter) {i : Fin n}
    (hv : violator services entrada maxT st i)
    (hmin : ∀ j, violator services entrada maxT st j → i ≤ j) :
    acTime services (groupStep services entrada maxT st) i = services i := by
  have hgi : (groupStep services entrada maxT st).grp i = st.counter + 1 := by
    simp only [groupStep]; exact if_pos hv
  unfold acTime
  have hset : Finset.univ.filter
      (fun j => j ≤ i ∧ (groupStep services entrada maxT st).grp j =
        (groupStep services entrada maxT st).grp i) = {i} := by
    ext j
    simp only [Finset.mem_filter, Finset.mem_univ, true_and,
      Finset.mem_singleton, hgi]
    constructor
    · rintro ⟨hji, hj⟩
      by_cases hvj : violator services entrada maxT st j
      · exact le_antisymm hji (hmin j hvj)
      · exfalso
        have : (groupStep services entrada maxT st).grp j = st.grp j := by
          simp only [groupStep]; exact if_neg hvj
        rw [this] at hj
        exact absurd (hj ▸ hfresh j) (by omega)
    · rintro rfl
      exact ⟨le_refl _, hgi⟩
  rw [hset, Finset.sum_singleton]

lemma violators_decrease {n : ℕ} (services : Fin n → ℕ) (entrada maxT : ℕ)
    (st : GroupState n) (hfresh : ∀ i, st.grp i ≤ st.counter)
    (hpre : ∀ i, services i + entrada ≤ maxT)
    (hex : ∃ i, violator services entrada maxT st i) :
    (Finset.univ.filter
        (violator services entrada maxT (groupStep services entrada maxT st))).card <
      (Finset.univ.filter (violator services entrada maxT st)).card := by
  obtain ⟨i0, hi0⟩ := hex
  have hne : (Finset.univ.filter (violator services entrada maxT st)).Nonempty :=
    ⟨i0, Finset.mem_filter.mpr ⟨Finset.mem_univ _, hi0⟩⟩
  set m := (Finset.univ.filter (violator services entrada maxT st)).min' hne with hm_def
  have hm : violator services entrada maxT st m :=
    (Finset.mem_filter.mp (Finset.min'_mem _ hne)).2
  have hmin : ∀ j, violator services entrada maxT st j → m ≤ j := fun j hj =>
    Finset.min'_le _ j (Finset.mem_filter.mpr ⟨Finset.mem_univ _, hj⟩)
  apply Finset.card_lt_card
  rw [Finset.ssubset_iff_of_subset]
  · refine ⟨m, Finset.mem_filter.mpr ⟨Finset.mem_univ _, hm⟩, ?_⟩
    intro hmem
    have hv' := (Finset.mem_filter.mp hmem).2
    have heq := acTime_groupStep_min_violator services entrada maxT st hfresh hm hmin
    unfold violator at hv'
    rw [heq] at hv'
    exact absurd hv' (not_lt.mpr (hpre m))
  · intro j hj
    have hv' := (Finset.mem_filter.mp hj).2
    refine Finset.mem_filter.mpr ⟨Finset.mem_univ _, ?_⟩
    by_contra hnv
    have heq := acTime_groupStep_of_not_violator services entrada maxT st hfresh j hnv
    unfold violator at hv'
    rw [heq] at hv'
    exact hnv hv'

lemma groupLoop_succeeds {n : ℕ} (services : Fin n → ℕ) (entrada maxT : ℕ) :
    ∀ (fuel : ℕ) (st : GroupState n),
      (∀ i, st.grp i ≤ st.counter) →
      (∀ i, services i + entrada ≤ maxT) →
      (Finset.univ.filter (violator services entrada maxT st)).card ≤ fuel →
      ∃ st', groupLoop services entrada maxT fuel st = some st' ∧
        ∀ i, ¬ violator services entrada maxT st' i := by
  intro fuel
  induction fuel with
  | zero =>
      intro st _ _ hcard
      have hempty : Finset.univ.filter (violator services entrada maxT st) = ∅ :=
        Finset.card_eq_zero.mp (Nat.le_zero.mp hcard)
      have hnone : ¬ ∃ i, violator services entrada maxT st i := by
        rintro ⟨i, hi⟩
        have : i ∈ Finset.univ.filter (violator services entrada maxT st) :=
          Finset.mem_filter.mpr ⟨Finset.mem_univ _, hi⟩
        simp [hempty] at this
      refine ⟨st, ?_, fun i hi => hnone ⟨i, hi⟩⟩
      rw [groupLoop, if_neg hnone]
  | succ fuel ih =>
      intro st hfresh hpre hcard
      by_cases hex : ∃ i, violator services entrada maxT st i
      · rw [groupLoop, if_pos hex]
        exact ih (groupStep services entrada maxT st)
          (groupStep_fresh services entrada maxT st hfresh) hpre
          (by
            have := violators_decrease services entrada maxT st hfresh hpre hex
            omega)
      · refine ⟨st, ?_, fun i hi => hex ⟨i, hi⟩⟩
        rw [groupLoop, if_neg hex]

lemma no_violator_group_sums {n : ℕ} (services : Fin n → ℕ) (entrada maxT : ℕ)
    (st : GroupState n) (h : ∀ i, ¬ violator services entrada maxT st i) :
    ∀ g ∈ Finset.univ.image st.grp,
      (∑ j ∈ Finset.univ.filter (fun j => st.grp j = g), services j) + entrada ≤
        maxT := by
  intro g hg
  obtain ⟨i0, _, rfl⟩ := Finset.mem_image.mp hg
  have hne : (Finset.univ.filter (fun j => st.grp j = st.grp i0)).Nonempty :=
    ⟨i0, Finset.mem_filter.mpr ⟨Finset.mem_univ _, rfl⟩⟩
  set m := (Finset.univ.filter (fun j => st.grp j = st.grp i0)).max' hne with hm_def
  have hm : st.grp m = st.grp i0 := (Finset.mem_filter.mp (Finset.max'_mem _ hne)).2
  have hsum : acTime services st m =
      ∑ j ∈ Finset.univ.filter (fun j => st.grp j = st.grp i0), services j := by
    unfold acTime
    apply Finset.sum_congr _ (fun _ _ => rfl)
    ext j
    simp only [Finset.mem_filter, Finset.mem_univ, true_and, hm]
    constructor
    · rintro ⟨_, hj⟩
      exact hj
    · intro hj
      exact ⟨Finset.le_max' _ j (Finset.mem_filter.mpr ⟨Finset.mem_univ _, hj⟩), hj⟩
  have := h m
  unfold violator at this
  omega

/-- C8: for every group the daily grouping loop produces, the sum of
service times plus the partner entry time stays within `MAX_TIME`, provided
every single asset fits on its own — and under that precondition the
while-loop of solve.py lines 564–568 terminates (within `n` iterations for
`n` rows). -/
theorem c8_grouping (n : ℕ) (services : Fin n → ℕ) (entrada maxT : ℕ)
    (hpre : ∀ i, services i + entrada ≤ maxT) :
    ∃ st, groupLoop services entrada maxT n (groupInit n) = some st ∧
      ∀ g ∈ Finset.univ.image st.grp,
        (∑ j ∈ Finset.univ.filter (fun j => st.grp j = g), services j) +
            entrada ≤ maxT := by
  obtain ⟨st, hloop, hnoviol⟩ :=
    groupLoop_succeeds services entrada maxT n (groupInit n)
      (fun _ => le_refl 1) hpre
      (le_trans (Finset.card_filter_le _ _) (by simp))
  exact ⟨st, hloop, no_violator_group_sums services entrada maxT st hnoviol⟩

/-- C8 (witness): the grouping invariant at three concrete assets of 600 s
service each, entry 300 s, `MAX_TIME = 1000 s` (each fits alone). -/
theorem c8_witness :
    (∀ i : Fin 3, (![600, 600, 600] : Fin 3 → ℕ) i + 300 ≤ 1000) ∧
    ∃ st, groupLoop (![600, 600, 600] : Fin 3 → ℕ) 300 1000 3 (groupInit 3) =
        some st ∧
      ∀ g ∈ Finset.univ.image st.grp,
        (∑ j ∈ Finset.univ.filter (fun j => st.grp j = g),
            (![600, 600, 600] : Fin 3 → ℕ) j) + 300 ≤ 1000 :=
  ⟨by decide, c8_grouping 3 ![600, 600, 600] 300 1000 (by decide)⟩

/-! ## Claim C6 — the pattern catalog equals the rotated canonical base -/

lemma baseAux_eq_map (np_ : ℕ) (step : ℚ) :
    ∀ (k : ℕ) (c : ℚ), baseAux np_ step k c =
      (List.range k).map
        (fun (i : ℕ) => (pyRound (c + (i : ℚ) * step)).toNat % np_) := by
  intro k
  induction k with
  | zero => intro c; rfl
  | succ k ih =>
      intro c
      rw [baseAux, List.range_succ_eq_map, List.map_cons, List.map_map]
      congr 1
      · norm_num
      · rw [ih (c + step)]
        apply List.map_congr_left
        intro i _
        simp only [Function.comp_apply]
        congr 2
        push_cast
        ring_nf

lemma baseAux_eq_specBase (dw f : ℕ) :
    baseAux dw ((dw : ℚ) / (f : ℚ)) f 0 = specBase dw f := by
  rw [baseAux_eq_map]
  unfold specBase
  apply List.map_congr_left
  intro i _
  congr 2
  ring_nf

lemma pyRound_bounds (q : ℚ) :
    q - 1 / 2 ≤ (pyRound q : ℚ) ∧ (pyRound q : ℚ) ≤ q + 1 / 2 := by
  have h1 : (⌊q⌋ : ℚ) ≤ q := Int.floor_le q
  have h2 : q < ⌊q⌋ + 1 := Int.lt_floor_add_one q
  unfold pyRound
  split_ifs with ha hb hc <;> constructor <;> push_cast <;> linarith

lemma pyRound_natCast (i : ℕ) : pyRound (i : ℚ) = i := by
  unfold pyRound
  rw [Int.floor_natCast]
  norm_num

lemma pyRound_lt_pyRound {q r : ℚ} (h : 1 < r - q) : pyRound q < pyRound r := by
  have hb1 := pyRound_bounds q
  have hb2 := pyRound_bounds r
  have : (pyRound q : ℚ) < pyRound r := by linarith
  exact_mod_cast this

lemma specBase_psi_nonneg (dw f i : ℕ) :
    0 ≤ pyRound ((i : ℚ) * dw / f) := by
  have hq : (0 : ℚ) ≤ (i : ℚ) * dw / f := by positivity
  have hb := (pyRound_bounds ((i : ℚ) * dw / f)).1
  have : (-1 : ℚ) < (pyRound ((i : ℚ) * dw / f) : ℚ) := by linarith
  have : (-1 : ℤ) < pyRound ((i : ℚ) * dw / f) := by exact_mod_cast this
  omega

lemma specBase_psi_lt (dw f : ℕ) (hf1 : 1 ≤ f) (hfd : f ≤ dw) {i : ℕ}
    (hi : i < f) : pyRound ((i : ℚ) * dw / f) < dw := by
  have hf0 : (0 : ℚ) < f := by exact_mod_cast hf1
  have hstep : (1 : ℚ) ≤ (dw : ℚ) / f := by
    rw [le_div_iff₀ hf0]
    exact_mod_cast by omega
  have hi' : (i : ℚ) ≤ (f : ℚ) - 1 := by
    have : (i : ℚ) + 1 ≤ f := by exact_mod_cast hi
    linarith
  have hq : (i : ℚ) * dw / f ≤ (dw : ℚ) - 1 := by
    have hdw0 : (0 : ℚ) ≤ (dw : ℚ) := by positivity
    have hfd' : (f : ℚ) * ((dw : ℚ) / f) = dw := by field_simp
    have hassoc : (i : ℚ) * dw / f = (i : ℚ) * ((dw : ℚ) / f) :=
      mul_div_assoc _ _ _
    have hmul : (i : ℚ) * ((dw : ℚ) / f) ≤ ((f : ℚ) - 1) * ((dw : ℚ) / f) :=
      mul_le_mul_of_nonneg_right hi' (by linarith)
    have hexp : ((f : ℚ) - 1) * ((dw : ℚ) / f) = dw - (dw : ℚ) / f := by
      rw [sub_mul, one_mul, hfd']
    linarith
  have hb := (pyRound_bounds ((i : ℚ) * dw / f)).2
  have : (pyRound ((i : ℚ) * dw / f) : ℚ) < dw := by linarith
  exact_mod_cast this

lemma specBase_psi_strictMono (dw f : ℕ) (hf1 : 1 ≤ f) (hfd : f ≤ dw)
    {i j : ℕ} (hij : i < j) :
    pyRound ((i : ℚ) * dw / f) < pyRound ((j : ℚ) * dw / f) := by
  have hf0 : (0 : ℚ) < f := by exact_mod_cast hf1
  by_cases hdf : dw = f
  · have hq : ∀ m : ℕ, (m : ℚ) * dw / f = m := by
      intro m
      rw [hdf]
      field_simp
    rw [hq i, hq j, pyRound_natCast, pyRound_natCast]
    exact_mod_cast hij
  · have hlt : (f : ℚ) < dw := by
      exact_mod_cast lt_of_le_of_ne hfd (fun h => hdf h.symm)
    have hstep : (1 : ℚ) < (dw : ℚ) / f := by
      rw [lt_div_iff₀ hf0]
      linarith
    apply pyRound_lt_pyRound
    have hji : (1 : ℚ) ≤ (j : ℚ) - i := by
      have : (i : ℚ) + 1 ≤ j := by exact_mod_cast hij
      linarith
    have : (j : ℚ) * dw / f - (i : ℚ) * dw / f = ((j : ℚ) - i) * ((dw : ℚ) / f) := by
      ring
    rw [this]
    calc (1 : ℚ) < (dw : ℚ) / f := hstep
      _ = 1 * ((dw : ℚ) / f) := (one_mul _).symm
      _ ≤ ((j : ℚ) - i) * ((dw : ℚ) / f) :=
          mul_le_mul_of_nonneg_right hji (by positivity)

lemma specBase_get (dw f : ℕ) (hf1 : 1 ≤ f) (hfd : f ≤ dw) {i : ℕ}
    (hi : i < f) :
    (pyRound ((i : ℚ) * dw / f)).toNat % dw = (pyRound ((i : ℚ) * dw / f)).toNat := by
  apply Nat.mod_eq_of_lt
  have h1 := specBase_psi_nonneg dw f i
  have h2 := specBase_psi_lt dw f hf1 hfd hi
  omega

lemma specBase_nodup (dw f : ℕ) (hf1 : 1 ≤ f) (hfd : f ≤ dw) :
    (specBase dw f).Nodup := by
  unfold specBase
  refine List.Nodup.map_on ?_ (List.nodup_range f)
  intro x hx y hy hxy
  rw [List.mem_range] at hx hy
  by_contra hne
  rcases Nat.lt_or_ge x y with h | h
  · have hlt := specBase_psi_strictMono dw f hf1 hfd h
    rw [specBase_get dw f hf1 hfd hx, specBase_get dw f hf1 hfd hy] at hxy
    have h1 := specBase_psi_nonneg dw f x
    have h2 := specBase_psi_nonneg dw f y
    omega
  · rcases Nat.lt_or_ge y x with h' | h'
    · have hlt := specBase_psi_strictMono dw f hf1 hfd h'
      rw [specBase_get dw f hf1 hfd hx, specBase_get dw f hf1 hfd hy] at hxy
      have h1 := specBase_psi_nonneg dw f x
      have h2 := specBase_psi_nonneg dw f y
      omega
    · exact hne (le_antisymm h' h)

lemma specBase_lt (dw f : ℕ) (hf1 : 1 ≤ f) (hfd : f ≤ dw) {t : ℕ}
    (ht : t ∈ specBase dw f) : t < dw := by
  have hdw : 0 < dw := by omega
  unfold specBase at ht
  obtain ⟨i, _, rfl⟩ := List.mem_map.mp ht
  exact Nat.mod_lt _ hdw

lemma mod_shift_inj {dw s : ℕ} {t1 t2 : ℕ} (h1 : t1 < dw) (h2 : t2 < dw)
    (h : (t1 + s) % dw = (t2 + s) % dw) : t1 = t2 := by
  have hmod : t1 % dw = t2 % dw := Nat.ModEq.add_right_cancel' s h
  rwa [Nat.mod_eq_of_lt h1, Nat.mod_eq_of_lt h2] at hmod

lemma visitPattern_perm_specBase (dw f : ℕ) :
    (visitPattern dw f).Perm (specBase dw f) := by
  unfold visitPattern
  rw [baseAux_eq_specBase]
  exact List.perm_insertionSort _ _

lemma rotation_perm (dw f s : ℕ) :
    (rotation dw f s).Perm ((specBase dw f).map (fun t => (t + s) % dw)) := by
  unfold rotation
  exact (List.perm_insertionSort _ _).trans
    ((visitPattern_perm_specBase dw f).map _)

lemma rotation_nodup (dw f s : ℕ) (hf1 : 1 ≤ f) (hfd : f ≤ dw) :
    (rotation dw f s).Nodup := by
  rw [(rotation_perm dw f s).nodup_iff]
  refine List.Nodup.map_on ?_ (specBase_nodup dw f hf1 hfd)
  intro x hx y hy hxy
  exact mod_shift_inj (specBase_lt dw f hf1 hfd hx)
    (specBase_lt dw f hf1 hfd hy) hxy

lemma rotation_sorted (dw f s : ℕ) : (rotation dw f s).Sorted (· ≤ ·) :=
  List.sorted_insertionSort _ _

/-- C6: for every weekly day count `Dw` and frequency `1 ≤ f ≤ Dw`, the
pattern catalog computed by `generate_visit_patterns` equals — as a set of
day-index sets, with no duplicate entries — the set of all `Dw` rotations of
the canonical equispaced base `{round(i·Dw/f) mod Dw : i = 0..f-1}`,
deduplicated as sets. -/
theorem c6_pattern_catalog (dw f : ℕ) (hf1 : 1 ≤ f) (hfd : f ≤ dw) :
    ((generateVisitPatterns dw f).map List.toFinset).Nodup ∧
    ((generateVisitPatterns dw f).map List.toFinset).toFinset =
      specCatalog dw f := by
  constructor
  · refine List.Nodup.map_on ?_ (List.nodup_dedup _)
    intro x hx y hy hxy
    obtain ⟨sx, _, rfl⟩ :=
      List.mem_map.mp (List.mem_dedup.mp hx)
    obtain ⟨sy, _, rfl⟩ :=
      List.mem_map.mp (List.mem_dedup.mp hy)
    have hperm := List.perm_of_nodup_nodup_toFinset_eq
      (rotation_nodup dw f sx hf1 hfd) (rotation_nodup dw f sy hf1 hfd) hxy
    exact List.eq_of_perm_of_sorted hperm
      (rotation_sorted dw f sx) (rotation_sorted dw f sy)
  · unfold generateVisitPatterns specCatalog
    ext S
    simp only [List.mem_toFinset, List.mem_map, List.mem_dedup, List.mem_range,
      Finset.mem_image, Finset.mem_range]
    constructor
    · rintro ⟨a, ⟨s, hs, rfl⟩, rfl⟩
      exact ⟨s, hs, (List.toFinset_eq_of_perm _ _ (rotation_perm dw f s)).symm⟩
    · rintro ⟨s, hs, rfl⟩
      exact ⟨rotation dw f s, ⟨s, hs, rfl⟩,
        List.toFinset_eq_of_perm _ _ (rotation_perm dw f s)⟩

/-- C6 (witness): the catalog equality at `Dw = 5`, `f = 2`. -/
theorem c6_witness :
    (1 ≤ 2 ∧ 2 ≤ 5) ∧
    (((generateVisitPatterns 5 2).map List.toFinset).Nodup ∧
      ((generateVisitPatterns 5 2).map List.toFinset).toFinset =
        specCatalog 5 2) :=
  ⟨by decide, c6_pattern_catalog 5 2 (by decide) (by decide)⟩

/-! ## Claim C7 — infeasibility is silently swallowed by the scheduler -/

lemma visitPattern_6_6 : visitPattern 6 6 = [0, 1, 2, 3, 4, 5] := by
  norm_num [visitPattern, baseAux, pyRound]
  decide

lemma generateVisitPatterns_6_6 :
    generateVisitPatterns 6 6 = [[0, 1, 2, 3, 4, 5]] := by
  unfold generateVisitPatterns
  rw [show List.range 6 = [0, 1, 2, 3, 4, 5] from rfl]
  simp only [List.map_cons, List.map_nil, rotation, visitPattern_6_6]
  decide

/-- C7: with `Dw = 6`, an asset of frequency 6 whose derived
`ALLOW_SATURDAY` is false (here the asset `P1_B` with `dpw = 6`): its
admissible pattern set is empty, so the exactly-one-pattern constraint of
the per-branch MIP is unsatisfiable — yet cronograma.py never checks the
solver status, and for every solver assignment the extraction emits a
schedule that simply has no rows for the asset, instead of surfacing an
infeasibility error naming it. -/
theorem c7_silent_infeasibility :
    candidatos 6 6 (allowSaturday 6 6 "P1_B") = [] ∧
    (¬ ∃ x : ℕ → Bool,
        constraintSat (candidatos 6 6 (allowSaturday 6 6 "P1_B")) x) ∧
    (∀ x : ℕ → Bool, scheduleFor 6 6 6 "P1_B" x = []) := by
  have hallow : allowSaturday 6 6 "P1_B" = false := by decide
  have hcand : candidatos 6 6 (allowSaturday 6 6 "P1_B") = [] := by
    rw [hallow]
    simp only [candidatos, generateVisitPatterns_6_6]
    decide
  refine ⟨hcand, ?_, ?_⟩
  · rintro ⟨x, hx⟩
    rw [hcand] at hx
    simp [constraintSat] at hx
  · intro x
    simp [scheduleFor, extractDays, hcand]

end Kerney
